import Mathlib

/-!
Shallow embedding of the pair-trading analytics core
(`backend/analytics.py`, `backend/db.py`, `backend/ingestion.py`).

Conventions used throughout:
* timestamps are `Nat` (epoch units at the tick resolution);
* prices, quantities and derived statistics are exact rationals `ℚ`
  (the Python code uses IEEE floats; we idealise arithmetic as exact,
  and represent the float `NaN` produced by pandas as `Option.none`);
* values that pandas materialises as `NaN` columns are `Option ℚ`
  (or `Option ℝ` where a square root is taken);
* a pandas `DataFrame`/`Series` indexed by timestamps is a list of
  `(key, value)` pairs in index order.
-/

namespace QuantCore

/-- A stored tick row as produced by `load_ticks`: timestamp, price, quantity. -/
structure Tick where
  ts : Nat
  price : ℚ
  qty : ℚ
  deriving DecidableEq, Repr

/-- An OHLCV bar as produced by `resample_candles`. -/
structure Candle where
  bucket : Nat
  open_ : ℚ
  high : ℚ
  low : ℚ
  close : ℚ
  volume : ℚ
  deriving DecidableEq, Repr

/-- Epoch-aligned bucket assignment used by `df.resample(timeframe)`:
`floor(ts / interval) * interval` (Nat division is floor division). -/
def bucketOf (interval ts : Nat) : Nat :=
  ts / interval * interval

/-- The ticks of the frame falling into bucket `b`. -/
def bucketTicks (ticks : List Tick) (interval b : Nat) : List Tick :=
  ticks.filter (fun t => bucketOf interval t.ts == b)

/-- OHLCV aggregation of one non-empty bucket, single pass in frame order:
open is the first row, close the last, high/low running extrema,
volume the sum of quantities (`.ohlc()` joined with `.sum()`). -/
def candleOf (b : Nat) (t0 : Tick) (rest : List Tick) : Candle :=
  { bucket := b
    open_ := t0.price
    high := (rest.map Tick.price).foldl max t0.price
    low := (rest.map Tick.price).foldl min t0.price
    close := ((t0 :: rest).getLast (List.cons_ne_nil t0 rest)).price
    volume := ((t0 :: rest).map Tick.qty).sum }

/-- Embedding of `resample_candles` (`backend/analytics.py`):
`df["price"].resample(timeframe).ohlc()` joined with
`df["qty"].resample(timeframe).sum()`, then `dropna()`.  The `dropna`
removes exactly the empty buckets, so the result has one candle per
bucket that received at least one tick; buckets appear in order of
first appearance in the frame (ascending, since the frame is
time-sorted). -/
def resample_candles (ticks : List Tick) (interval : Nat) : List Candle :=
  ((ticks.map (fun t => bucketOf interval t.ts)).dedup).filterMap (fun b =>
    match bucketTicks ticks interval b with
    | [] => none
    | t0 :: rest => some (candleOf b t0 rest))

/-! ### Tick store (`backend/db.py`) -/

/-- ASCII lowercase of one character. -/
def lowerChar (c : Char) : Char :=
  if 'A' ≤ c ∧ c ≤ 'Z' then Char.ofNat (c.toNat + 32) else c

/-- Python `symbol.lower()` on the ASCII symbol strings used here, defined
structurally over the character list so concrete instances compute. -/
def pyLower (s : String) : String :=
  ⟨s.data.map lowerChar⟩

/-- A row of the `ticks` table (the auto-increment `id` is the list position). -/
structure Row where
  ts : Nat
  symbol : String
  price : ℚ
  qty : ℚ
  deriving DecidableEq, Repr

/-- The tick ledger in insertion order. -/
abbrev DB := List Row

/-- Embedding of `insert_tick`: appends one row, lowercasing the symbol. -/
def insert_tick (db : DB) (symbol : String) (price qty : ℚ) (ts : Nat) : DB :=
  db ++ [{ ts := ts, symbol := pyLower symbol, price := price, qty := qty }]

/-- Descending-timestamp order of `ORDER BY ts DESC`. -/
def tsDesc (a b : Row) : Prop :=
  b.ts ≤ a.ts

instance : DecidableRel tsDesc :=
  fun a b => Nat.decLe b.ts a.ts

instance : IsTotal Row tsDesc :=
  ⟨fun a b => Nat.le_total b.ts a.ts⟩

instance : IsTrans Row tsDesc :=
  ⟨fun _ _ _ h1 h2 => le_trans h2 h1⟩

/-- Embedding of `fetch_recent_ticks`: filter on the lowercased symbol,
order by timestamp descending (a stable sort, as the index scan is), take
at most `limit` rows. -/
def fetch_recent_ticks (db : DB) (symbol : String) (limit : Nat) : List Row :=
  ((db.filter (fun r => r.symbol == pyLower symbol)).insertionSort tsDesc).take limit

/-! ### Close-price series and the pair spread (`backend/analytics.py`) -/

/-- A close-price series: `(timestamp, close)` pairs in index order. -/
abbrev Series := List (Nat × ℚ)

def seriesKeys (s : Series) : List Nat :=
  s.map Prod.fst

def lookupKey (s : Series) (k : Nat) : Option ℚ :=
  (s.find? (fun p => p.1 == k)).map Prod.snd

/-- Sorted union of the two index key sets: the index pandas builds when
aligning two series for arithmetic. -/
def unionKeys (a b : Series) : List Nat :=
  ((seriesKeys a ++ seriesKeys b).dedup).insertionSort (fun x y => x ≤ y)

/-- Embedding of `compute_pair_spread`: a `NaN` beta gives an empty frame;
otherwise `df1["close"] - beta * df2["close"]`, which pandas aligns on the
union of the two indexes, producing `NaN` at keys missing from either side. -/
def compute_pair_spread (df1 df2 : Series) (beta : Option ℚ) : List (Nat × Option ℚ) :=
  match beta with
  | none => []
  | some b =>
    (unionKeys df1 df2).map (fun k =>
      (k, match lookupKey df1 k, lookupKey df2 k with
          | some x, some y => some (x - b * y)
          | _, _ => none))

/-! ### Rolling statistics -/

/-- Trailing window of width `w` ending at index `i` (pandas `rolling(w)`). -/
def windowSlice (w i : Nat) (xs : List ℚ) : List ℚ :=
  (xs.take (i + 1)).drop (i + 1 - w)

def listMean (l : List ℚ) : ℚ :=
  l.sum / (l.length : ℚ)

/-- Sample variance with the `n − 1` denominator (pandas `std` uses
`ddof=1`).  `ℚ`-division by zero is `0`, so a window of length ≤ 1 gets
variance `0`, which the z-score embedding sends to `NaN` — matching pandas,
where such a window has `NaN` sample std. -/
def sampleVar (l : List ℚ) : ℚ :=
  ((l.map (fun x => (x - listMean l) ^ 2)).sum) / ((l.length : ℚ) - 1)

/-- pandas `series.rolling(w).mean()`: `NaN` before `w` observations. -/
def rolling_mean (w : Nat) (xs : List ℚ) : List (Option ℚ) :=
  (List.range xs.length).map (fun i =>
    if i + 1 < w then none else some (listMean (windowSlice w i xs)))

/-- Variance counterpart of pandas `series.rolling(w).std()`. -/
def rolling_var (w : Nat) (xs : List ℚ) : List (Option ℚ) :=
  (List.range xs.length).map (fun i =>
    if i + 1 < w then none else some (sampleVar (windowSlice w i xs)))

/-- One z-score entry `(x − mean) / sqrt(var)` with float `NaN` semantics:
`NaN` inputs propagate, and a zero std gives `NaN` (the numerator is then
exactly `0`, and float `0.0 / 0.0` is `NaN`). -/
noncomputable def zscoreVal (x : ℚ) (mu v : Option ℚ) : Option ℝ :=
  match mu, v with
  | some m, some s2 =>
    if s2 = 0 then none else some (((x - m : ℚ) : ℝ) / Real.sqrt ((s2 : ℚ) : ℝ))
  | _, _ => none

/-- The `zscore` column: `(close - rolling mean) / rolling std` elementwise. -/
noncomputable def zscoreCol (w : Nat) (xs : List ℚ) : List (Option ℝ) :=
  (List.range xs.length).map (fun i =>
    zscoreVal (xs.getD i 0) ((rolling_mean w xs).getD i none) ((rolling_var w xs).getD i none))

/-- Embedding of `compute_zscore`: copies the candle frame and adds the
`zscore` column; the result is the base frame paired with the new column. -/
noncomputable def compute_zscore (candles : Series) (w : Nat) : Series × List (Option ℝ) :=
  (candles, zscoreCol w (candles.map Prod.snd))

/-! ### Hedge ratio (`compute_hedge_ratio`) -/

/-- A series which may contain `NaN` values. -/
abbrev OSeries := List (Nat × Option ℚ)

def lookupKeyO (s : OSeries) (k : Nat) : Option (Option ℚ) :=
  (s.find? (fun p => p.1 == k)).map Prod.snd

/-- pandas `align(..., join="inner")`: rows whose key occurs in both series. -/
def align_inner (sx sy : OSeries) : List (Nat × Option ℚ × Option ℚ) :=
  sx.filterMap (fun p => (lookupKeyO sy p.1).map (fun v => (p.1, p.2, v)))

/-- pandas `dropna()` on a value column. -/
def dropna (l : List (Option ℚ)) : List ℚ :=
  l.filterMap id

/-- The `x` column after `align` + `dropna` in `compute_hedge_ratio`. -/
def hedgeX (sx sy : OSeries) : List ℚ :=
  dropna ((align_inner sx sy).map (fun t => t.2.1))

/-- The `y` column after `align` + `dropna` in `compute_hedge_ratio`. -/
def hedgeY (sx sy : OSeries) : List ℚ :=
  dropna ((align_inner sx sy).map (fun t => t.2.2))

/-- Closed-form OLS slope of `y = alpha + beta * x`, with `none` on the
failure modes the source's `try/except` absorbs: mismatched array lengths
(statsmodels shape error — the two columns are dropna'd independently) and
constant `x` (`sm.add_constant` defaults to `has_constant="skip"`, so the
design matrix keeps a single column and `params[1]` raises `IndexError`).
`x` is constant iff `n * Σx² − (Σx)²` is zero. -/
def olsSlope (x y : List ℚ) : Option ℚ :=
  if x.length ≠ y.length then none
  else if (x.length : ℚ) * (x.map (fun a => a * a)).sum - x.sum * x.sum = 0 then none
  else some (((x.length : ℚ) * (List.zipWith (fun a b => a * b) x y).sum - x.sum * y.sum)
    / ((x.length : ℚ) * (x.map (fun a => a * a)).sum - x.sum * x.sum))

/-- Embedding of `compute_hedge_ratio`: `none` models the float `NaN` the
source returns on the insufficient-data and exception paths. -/
def compute_hedge_ratio (sx sy : OSeries) (min_points : Nat) : Option ℚ :=
  if (hedgeX sx sy).length < min_points ∨ (hedgeY sx sy).length < min_points then none
  else olsSlope (hedgeX sx sy) (hedgeY sx sy)

/-! ### Rolling correlation (`compute_rolling_correlation`) -/

/-- Sample covariance (the `n − 1` denominators cancel in the correlation). -/
def listCov (x y : List ℚ) : ℚ :=
  ((List.zipWith (fun a b => (a - listMean x) * (b - listMean y)) x y).sum) / ((x.length : ℚ) - 1)

/-- Pearson correlation of one trailing window, as pandas
`rolling(w).corr(other)` computes it: covariance over the product of the
standard deviations; `NaN` when either variance vanishes (the covariance
then vanishes as well, and float `0.0 / 0.0` is `NaN`). -/
noncomputable def pearson (x y : List ℚ) : Option ℝ :=
  if sampleVar x = 0 ∨ sampleVar y = 0 then none
  else some ((((listCov x y) : ℚ) : ℝ) /
    (Real.sqrt (((sampleVar x) : ℚ) : ℝ) * Real.sqrt (((sampleVar y) : ℚ) : ℝ)))

/-- `merged["close"] = df1["close"]; merged["other_close"] = df2["close"]`
followed by `dropna()`: the rows of `df1` whose key also occurs in `df2`,
paired with the matching `df2` close. -/
def mergedPair (df1 df2 : Series) : List (Nat × ℚ × ℚ) :=
  df1.filterMap (fun p => (lookupKey df2 p.1).map (fun v => (p.1, p.2, v)))

/-- Embedding of `compute_rolling_correlation`: the `rolling_corr` column of
the merged frame; all-`NaN` when the joined frame is shorter than the
window, with the pandas `min_periods = w` head `NaN`s otherwise. -/
noncomputable def compute_rolling_correlation (df1 df2 : Series) (w : Nat) :
    List (Nat × Option ℝ) :=
  let m := mergedPair df1 df2
  if m.length < w then m.map (fun p => (p.1, none))
  else
    (List.range m.length).map (fun i =>
      ((m.map Prod.fst).getD i 0,
        if i + 1 < w then none
        else pearson (windowSlice w i (m.map (fun p => p.2.1)))
          (windowSlice w i (m.map (fun p => p.2.2)))))

/-! ### ADF stationarity test (`run_adf_test`) -/

/-- The numeric outputs of `statsmodels.tsa.stattools.adfuller` that the
source consumes: test statistic, p-value, critical values at 1%/5%/10%.
The procedure itself is external to the repository, so `run_adf_test` below
takes it as an uninterpreted total function. -/
structure AdfRaw where
  stat : ℚ
  pval : ℚ
  crit1 : ℚ
  crit5 : ℚ
  crit10 : ℚ
  deriving DecidableEq, Repr

/-- Result dictionary of `run_adf_test`: either the insufficient-data
outcome `{"error": ...}` or the populated statistics dictionary. -/
inductive AdfOutcome where
  | insufficient
  | ok (stat pval crit1 crit5 crit10 : ℚ) (stationary_at_5pct : Bool)
  deriving DecidableEq, Repr

/-- Embedding of `run_adf_test`: drop `NaN`s, require at least 20 points,
otherwise report the adfuller numbers plus `stationary_at_5pct = (p < 0.05)`. -/
def run_adf_test (adfuller : List ℚ → AdfRaw) (series : List (Option ℚ)) : AdfOutcome :=
  if (dropna series).length < 20 then .insufficient
  else
    .ok (adfuller (dropna series)).stat (adfuller (dropna series)).pval
      (adfuller (dropna series)).crit1 (adfuller (dropna series)).crit5
      (adfuller (dropna series)).crit10
      (decide ((adfuller (dropna series)).pval < 1 / 20))

/-! ### Feed ingestion (`backend/ingestion.py`) -/

/-- One frame received from the feed: either bytes on which `json.loads`
raises, or a JSON object with the fields `listen_to_binance` reads
(`p`/`q` given as parsed decimals when present and parseable). -/
inductive FeedMsg where
  | malformed
  | obj (e : Option String) (T : Option Nat) (p : Option ℚ) (q : Option ℚ) (s : Option String)
  deriving DecidableEq

/-- The arguments of one `insert_tick` call made by the ingestor. -/
structure Inserted where
  symbol : String
  price : ℚ
  qty : ℚ
  ts : Nat
  deriving DecidableEq, Repr

/-- One iteration of the `listen_to_binance` receive loop: `json.loads`
raises on malformed input (`Except.error`); a parsed object whose `"e"` is
not `"trade"` is skipped with no store (`ok none`); a trade object missing
`T`/`p`/`q` raises a `KeyError`; a well-formed trade is stored (the symbol
reaches the ledger lowercased via `insert_tick`). -/
def process_message (symbol : String) : FeedMsg → Except Unit (Option Inserted)
  | .malformed => .error ()
  | .obj e T p q _ =>
    if e = some "trade" then
      match T, p, q with
      | some ts, some price, some qty => .ok (some ⟨pyLower symbol, price, qty, ts⟩)
      | _, _, _ => .error ()
    else .ok none

/-- The receive loop over a finite prefix of the stream: messages processed
in order, stored ticks collected; there is no `try/except` in the loop, so
an exception terminates it (and the stream) at the offending message. -/
def run_listen (symbol : String) : List FeedMsg → Except Unit (List Inserted)
  | [] => .ok []
  | m :: rest =>
    match process_message symbol m with
    | .error () => .error ()
    | .ok none => run_listen symbol rest
    | .ok (some t) => (run_listen symbol rest).map (fun l => t :: l)

/-! ### Frame effects of the two z-score functions -/

/-- A spread frame: the `spread` column plus, when present, the
`spread_zscore` column (absent on a frame fresh from `compute_pair_spread`). -/
structure SpreadFrame where
  spread : List (Nat × Option ℚ)
  zcol : Option (List (Option ℝ))

/-- Trailing window over a column that may contain `NaN`s. -/
def windowSliceO (w i : Nat) (xs : List (Option ℚ)) : List (Option ℚ) :=
  (xs.take (i + 1)).drop (i + 1 - w)

/-- A window is usable iff every entry is defined (pandas rolling statistics
are `NaN` as soon as the window contains a `NaN`). -/
def seqOpt : List (Option ℚ) → Option (List ℚ)
  | [] => some []
  | none :: _ => none
  | some x :: rest => (seqOpt rest).map (fun l => x :: l)

/-- One entry of the `spread_zscore` column. -/
noncomputable def zscoreValO (x : Option ℚ) (win : List (Option ℚ)) : Option ℝ :=
  match x, seqOpt win with
  | some xv, some l => zscoreVal xv (some (listMean l)) (some (sampleVar l))
  | _, _ => none

/-- The `spread_zscore` column over a spread column with possible `NaN`s. -/
noncomputable def zscoreColO (w : Nat) (xs : List (Option ℚ)) : List (Option ℝ) :=
  (List.range xs.length).map (fun i =>
    if i + 1 < w then none else zscoreValO (xs.getD i none) (windowSliceO w i xs))

/-- Embedding of `compute_spread_zscore` as an explicit state transformer:
first component the returned frame, second the caller's frame after the
call.  `spread_df["spread_zscore"] = ...` assigns a column on the caller's
object in place and the function returns that same object; the empty guard
returns the input untouched. -/
noncomputable def compute_spread_zscore (f : SpreadFrame) (w : Nat) : SpreadFrame × SpreadFrame :=
  if f.spread.isEmpty then (f, f)
  else
    let g : SpreadFrame :=
      { spread := f.spread, zcol := some (zscoreColO w (f.spread.map Prod.snd)) }
    (g, g)

/-- `compute_zscore` as the same kind of state transformer: it starts from
`candles.copy()`, so the caller's frame after the call is the input,
unchanged. -/
noncomputable def compute_zscore_call (candles : Series) (w : Nat) :
    (Series × List (Option ℝ)) × Series :=
  (compute_zscore candles w, candles)

/-! ### Statement-level predicates -/

/-- The resampling contract of C1, for one frame and one interval: empty
input maps to empty output; one candle per bucket that received at least
one tick, and no others; candles in strictly ascending bucket order; and
per candle, open/close are the prices of the earliest/latest tick of its
bucket, high/low are attained extrema of the bucket's prices, and volume
is the sum of the bucket's quantities. -/
def ResampleSpec (ticks : List Tick) (interval : Nat) : Prop :=
  (ticks = [] → resample_candles ticks interval = [])
  ∧ (∀ b : Nat, (∃ c ∈ resample_candles ticks interval, c.bucket = b)
      ↔ ∃ t ∈ ticks, bucketOf interval t.ts = b)
  ∧ List.Sorted (· < ·) ((resample_candles ticks interval).map Candle.bucket)
  ∧ ∀ c ∈ resample_candles ticks interval,
      ∃ tf tl : Tick,
        (bucketTicks ticks interval c.bucket).head? = some tf
        ∧ (bucketTicks ticks interval c.bucket).getLast? = some tl
        ∧ c.open_ = tf.price
        ∧ (∀ t ∈ bucketTicks ticks interval c.bucket, tf.ts ≤ t.ts)
        ∧ c.close = tl.price
        ∧ (∀ t ∈ bucketTicks ticks interval c.bucket, t.ts ≤ tl.ts)
        ∧ (∀ t ∈ bucketTicks ticks interval c.bucket, c.low ≤ t.price ∧ t.price ≤ c.high)
        ∧ c.high ∈ (bucketTicks ticks interval c.bucket).map Tick.price
        ∧ c.low ∈ (bucketTicks ticks interval c.bucket).map Tick.price
        ∧ c.volume = ((bucketTicks ticks interval c.bucket).map Tick.qty).sum

/-- The recent-ticks contract that actually holds of `fetch_recent_ticks`
(C2 amended): the result is descending by timestamp, holds at most `limit`
rows, contains only ledger rows of the (lowercased) requested symbol, the
rows it leaves out are no more recent than any row it returns, and an
unknown or empty symbol yields the empty sequence — the function is total,
so no error is possible. -/
def FetchSpec (db : DB) (symbol : String) (limit : Nat) : Prop :=
  List.Sorted (fun a b : Row => b.ts ≤ a.ts) (fetch_recent_ticks db symbol limit)
  ∧ (fetch_recent_ticks db symbol limit).length ≤ limit
  ∧ (∀ r ∈ fetch_recent_ticks db symbol limit, r ∈ db ∧ r.symbol = pyLower symbol)
  ∧ (∀ r ∈ db, r.symbol = pyLower symbol → r ∉ fetch_recent_ticks db symbol limit →
      ∀ s ∈ fetch_recent_ticks db symbol limit, r.ts ≤ s.ts)
  ∧ ((∀ r ∈ db, r.symbol ≠ pyLower symbol) → fetch_recent_ticks db symbol limit = [])

/-- The spread contract that actually holds of `compute_pair_spread`
(C3 amended): a `NaN` beta yields the empty frame; for a valid beta the
output is indexed by the sorted union of the two series' timestamps — at
timestamps present in both series the value is `closeA − beta*closeB`,
while timestamps present in only one series are kept with an undefined
(`NaN`) value rather than dropped. -/
def SpreadSpec (df1 df2 : Series) (b : ℚ) : Prop :=
  compute_pair_spread df1 df2 none = []
  ∧ ((compute_pair_spread df1 df2 (some b)).map Prod.fst).Perm
      ((seriesKeys df1 ++ seriesKeys df2).dedup)
  ∧ List.Sorted (fun x y : Nat => x < y)
      ((compute_pair_spread df1 df2 (some b)).map Prod.fst)
  ∧ (∀ k v1 v2, (k, v1) ∈ df1 → (k, v2) ∈ df2 →
      (k, some (v1 - b * v2)) ∈ compute_pair_spread df1 df2 (some b))
  ∧ (∀ k, (k ∈ seriesKeys df1 ∨ k ∈ seriesKeys df2) →
      ¬(k ∈ seriesKeys df1 ∧ k ∈ seriesKeys df2) →
      (k, (none : Option ℚ)) ∈ compute_pair_spread df1 df2 (some b))
  ∧ (∀ k ov, (k, ov) ∈ compute_pair_spread df1 df2 (some b) →
      k ∈ seriesKeys df1 ∨ k ∈ seriesKeys df2)

end QuantCore

namespace QuantCore

/-! ### Generic list lemmas -/

theorem le_foldl_max_init {α : Type} [LinearOrder α] (a : α) (l : List α) :
    a ≤ l.foldl max a := by
  induction l generalizing a with
  | nil => exact le_refl a
  | cons b l ih => exact le_trans (le_max_left a b) (ih (max a b))

theorem le_foldl_max_mem {α : Type} [LinearOrder α] (a : α) (l : List α) (x : α)
    (hx : x ∈ l) : x ≤ l.foldl max a := by
  induction l generalizing a with
  | nil => cases hx
  | cons b l ih =>
    rcases List.mem_cons.mp hx with rfl | h
    · exact le_trans (le_max_right a x) (le_foldl_max_init (max a x) l)
    · exact ih (max a b) h

theorem foldl_max_mem {α : Type} [LinearOrder α] (a : α) (l : List α) :
    l.foldl max a = a ∨ l.foldl max a ∈ l := by
  induction l generalizing a with
  | nil => exact Or.inl rfl
  | cons b l ih =>
    rcases ih (max a b) with h | h
    · rcases max_choice a b with hab | hab
      · exact Or.inl (by rw [List.foldl_cons, h, hab])
      · exact Or.inr (by rw [List.foldl_cons, h, hab]; exact List.mem_cons_self b l)
    · exact Or.inr (List.mem_cons_of_mem b h)

theorem foldl_min_le_init {α : Type} [LinearOrder α] (a : α) (l : List α) :
    l.foldl min a ≤ a := by
  induction l generalizing a with
  | nil => exact le_refl a
  | cons b l ih => exact le_trans (ih (min a b)) (min_le_left a b)

theorem foldl_min_le_mem {α : Type} [LinearOrder α] (a : α) (l : List α) (x : α)
    (hx : x ∈ l) : l.foldl min a ≤ x := by
  induction l generalizing a with
  | nil => cases hx
  | cons b l ih =>
    rcases List.mem_cons.mp hx with rfl | h
    · exact le_trans (foldl_min_le_init (min a x) l) (min_le_right a x)
    · exact ih (min a b) h

theorem foldl_min_mem {α : Type} [LinearOrder α] (a : α) (l : List α) :
    l.foldl min a = a ∨ l.foldl min a ∈ l := by
  induction l generalizing a with
  | nil => exact Or.inl rfl
  | cons b l ih =>
    rcases ih (min a b) with h | h
    · rcases min_choice a b with hab | hab
      · exact Or.inl (by rw [List.foldl_cons, h, hab])
      · exact Or.inr (by rw [List.foldl_cons, h, hab]; exact List.mem_cons_self b l)
    · exact Or.inr (List.mem_cons_of_mem b h)

/-- In a list sorted by timestamp, every element's timestamp is at most the
last element's. -/
theorem sorted_ts_le_getLast {l : List Tick}
    (hs : List.Sorted (fun a b : Tick => a.ts ≤ b.ts) l) (hne : l ≠ []) :
    ∀ t ∈ l, t.ts ≤ (l.getLast hne).ts := by
  induction l with
  | nil => exact absurd rfl hne
  | cons a l ih =>
    intro t ht
    cases l with
    | nil =>
      rw [List.mem_singleton] at ht
      subst ht
      exact le_refl _
    | cons b m =>
      rw [List.getLast_cons (List.cons_ne_nil b m)]
      rcases List.mem_cons.mp ht with rfl | hmem
      · exact (List.pairwise_cons.mp hs).1 _ (List.getLast_mem (List.cons_ne_nil b m))
      · exact ih hs.of_cons (List.cons_ne_nil b m) t hmem

/-- Removing duplicates from a `≤`-sorted list yields a `<`-sorted list. -/
theorem sorted_lt_dedup {l : List Nat} (h : List.Sorted (· ≤ ·) l) :
    List.Sorted (· < ·) l.dedup := by
  have h1 : List.Sorted (· ≤ ·) l.dedup :=
    List.Pairwise.sublist (List.dedup_sublist l) h
  have h2 : l.dedup.Nodup := List.nodup_dedup l
  exact (h1.and h2).imp (fun hab => lt_of_le_of_ne hab.1 hab.2)

/-! ### C1: resample_candles -/

/-- Bucket assignment is monotone in the timestamp. -/
theorem bucketOf_mono (interval : Nat) {a b : Nat} (h : a ≤ b) :
    bucketOf interval a ≤ bucketOf interval b :=
  Nat.mul_le_mul_right interval (Nat.div_le_div_right h)

theorem sorted_bucket_map (ticks : List Tick) (interval : Nat)
    (h : List.Sorted (fun a b : Tick => a.ts ≤ b.ts) ticks) :
    List.Sorted (· ≤ ·) (ticks.map (fun t => bucketOf interval t.ts)) :=
  List.Pairwise.map _ (fun _ _ hab => bucketOf_mono interval hab) h

/-- Auxiliary: the bucket column of the filterMap over a list of inhabited
buckets reproduces that list. -/
theorem filterMap_candles_map_bucket (ticks : List Tick) (interval : Nat) :
    ∀ bs : List Nat, (∀ b ∈ bs, ∃ t ∈ ticks, bucketOf interval t.ts = b) →
      ((bs.filterMap (fun b =>
        match bucketTicks ticks interval b with
        | [] => none
        | t0 :: rest => some (candleOf b t0 rest))).map Candle.bucket) = bs := by
  intro bs
  induction bs with
  | nil => intro _; rfl
  | cons b bs ih =>
    intro h
    obtain ⟨t, ht, hb⟩ := h b (List.mem_cons_self b bs)
    have htb : t ∈ bucketTicks ticks interval b := by
      rw [bucketTicks, List.mem_filter]
      exact ⟨ht, by simp [hb]⟩
    rw [List.filterMap_cons]
    cases hcase : bucketTicks ticks interval b with
    | nil => rw [hcase] at htb; cases htb
    | cons t0 rest =>
      simp only [hcase]
      rw [List.map_cons, ih (fun x hx => h x (List.mem_cons_of_mem b hx))]
      rfl

/-- The bucket column of `resample_candles` is the dedup of the frame's
bucket assignments. -/
theorem resample_map_bucket (ticks : List Tick) (interval : Nat) :
    (resample_candles ticks interval).map Candle.bucket
      = (ticks.map (fun t => bucketOf interval t.ts)).dedup := by
  rw [resample_candles]
  apply filterMap_candles_map_bucket
  intro b hb
  rw [List.mem_dedup, List.mem_map] at hb
  obtain ⟨t, ht, hbt⟩ := hb
  exact ⟨t, ht, hbt⟩

/-- Elimination: every emitted candle is the aggregation of its non-empty
bucket group. -/
theorem resample_mem_elim {ticks : List Tick} {interval : Nat} {c : Candle}
    (hc : c ∈ resample_candles ticks interval) :
    ∃ t0 rest, bucketTicks ticks interval c.bucket = t0 :: rest
      ∧ c = candleOf c.bucket t0 rest := by
  rw [resample_candles, List.mem_filterMap] at hc
  obtain ⟨b, _, hfb⟩ := hc
  cases hcase : bucketTicks ticks interval b with
  | nil => rw [hcase] at hfb; cases hfb
  | cons t0 rest =>
    rw [hcase] at hfb
    have hcb : c = candleOf b t0 rest := by
      simpa using hfb.symm
    have hbb : c.bucket = b := by rw [hcb]; rfl
    exact ⟨t0, rest, by rw [hbb]; exact hcase, by rw [hbb]; exact hcb⟩

/-- C1: for every time-sorted tick frame and interval, `resample_candles`
assigns each tick to bucket `floor(ts / interval) * interval` and emits one
candle per non-empty bucket, in ascending bucket order, with open/close the
prices of the earliest/latest tick in the bucket, high/low the attained
extrema, volume the quantity sum; empty buckets are omitted and empty input
yields empty output. -/
theorem resample_candles_correct (ticks : List Tick) (interval : Nat)
    (hsort : List.Sorted (fun a b : Tick => a.ts ≤ b.ts) ticks) :
    ResampleSpec ticks interval := by
  refine ⟨?_, ?_, ?_, ?_⟩
  · intro h
    subst h
    rfl
  · intro b
    constructor
    · rintro ⟨c, hc, rfl⟩
      obtain ⟨t0, rest, hbt, _⟩ := resample_mem_elim hc
      have ht0 : t0 ∈ bucketTicks ticks interval c.bucket := by
        rw [hbt]; exact List.mem_cons_self t0 rest
      rw [bucketTicks, List.mem_filter] at ht0
      exact ⟨t0, ht0.1, by simpa using ht0.2⟩
    · rintro ⟨t, ht, hbt⟩
      have hmem : b ∈ (resample_candles ticks interval).map Candle.bucket := by
        rw [resample_map_bucket, List.mem_dedup, List.mem_map]
        exact ⟨t, ht, hbt⟩
      rw [List.mem_map] at hmem
      obtain ⟨c, hc, hcb⟩ := hmem
      exact ⟨c, hc, hcb⟩
  · rw [resample_map_bucket]
    exact sorted_lt_dedup (sorted_bucket_map ticks interval hsort)
  · intro c hc
    obtain ⟨t0, rest, hbt, hco⟩ := resample_mem_elim hc
    have hsorted : List.Sorted (fun a b : Tick => a.ts ≤ b.ts)
        (bucketTicks ticks interval c.bucket) :=
      List.Pairwise.filter _ hsort
    rw [hbt] at hsorted
    have hne : (t0 :: rest) ≠ [] := List.cons_ne_nil t0 rest
    refine ⟨t0, (t0 :: rest).getLast hne, ?_, ?_, ?_, ?_, ?_, ?_, ?_, ?_, ?_, ?_⟩
    · rw [hbt]; rfl
    · rw [hbt]; exact List.getLast?_eq_getLast _ hne
    · rw [hco]; rfl
    · intro t ht
      rw [hbt] at ht
      rcases List.mem_cons.mp ht with rfl | hmem
      · exact le_refl _
      · exact (List.pairwise_cons.mp hsorted).1 t hmem
    · rw [hco]; rfl
    · intro t ht
      rw [hbt] at ht
      exact sorted_ts_le_getLast hsorted hne t ht
    · intro t ht
      rw [hbt] at ht
      constructor
      · rw [hco]
        show (rest.map Tick.price).foldl min t0.price ≤ t.price
        rcases List.mem_cons.mp ht with rfl | hmem
        · exact foldl_min_le_init t.price (rest.map Tick.price)
        · exact foldl_min_le_mem t0.price (rest.map Tick.price) t.price
            (List.mem_map_of_mem Tick.price hmem)
      · rw [hco]
        show t.price ≤ (rest.map Tick.price).foldl max t0.price
        rcases List.mem_cons.mp ht with rfl | hmem
        · exact le_foldl_max_init t.price (rest.map Tick.price)
        · exact le_foldl_max_mem t0.price (rest.map Tick.price) t.price
            (List.mem_map_of_mem Tick.price hmem)
    · rw [hbt, hco]
      show (rest.map Tick.price).foldl max t0.price ∈ (t0 :: rest).map Tick.price
      rcases foldl_max_mem t0.price (rest.map Tick.price) with h | h
      · rw [h, List.map_cons]; exact List.mem_cons_self _ _
      · rw [List.map_cons]; exact List.mem_cons_of_mem _ h
    · rw [hbt, hco]
      show (rest.map Tick.price).foldl min t0.price ∈ (t0 :: rest).map Tick.price
      rcases foldl_min_mem t0.price (rest.map Tick.price) with h | h
      · rw [h, List.map_cons]; exact List.mem_cons_self _ _
      · rw [List.map_cons]; exact List.mem_cons_of_mem _ h
    · rw [hbt, hco]
      rfl

/-- Witness for C1 at the spec's concrete scenario: three ticks at 0 ms,
500 ms and 1000 ms resampled at a 1000 ms interval. -/
theorem resample_candles_correct_witness :
    List.Sorted (fun a b : Tick => a.ts ≤ b.ts)
      [⟨0, 100, 1⟩, ⟨500, 101, 2⟩, ⟨1000, 99, 1⟩]
    ∧ ResampleSpec [⟨0, 100, 1⟩, ⟨500, 101, 2⟩, ⟨1000, 99, 1⟩] 1000 :=
  ⟨by decide, resample_candles_correct _ 1000 (by decide)⟩

/-! ### C2: fetch_recent_ticks -/

/-- The sorted form of the ledger scan underlying `fetch_recent_ticks`. -/
theorem sorted_fetch_base (db : DB) (symbol : String) :
    List.Sorted tsDesc
      ((db.filter (fun r => r.symbol == pyLower symbol)).insertionSort tsDesc) :=
  List.sorted_insertionSort tsDesc _

/-- Counterexample to C2 as stated: on a ledger holding "btc" ticks at
times 1 and 2, the fetched sequence is `[ts 2, ts 1]` — descending, not
ascending, by timestamp. -/
theorem fetch_recent_ticks_not_ascending :
    (fetch_recent_ticks [⟨1, "btc", 5, 1⟩, ⟨2, "btc", 6, 1⟩] "btc" 10).map Row.ts = [2, 1]
    ∧ ¬ List.Sorted (fun a b : Nat => a ≤ b)
        ((fetch_recent_ticks [⟨1, "btc", 5, 1⟩, ⟨2, "btc", 6, 1⟩] "btc" 10).map Row.ts) := by
  constructor
  · rfl
  · decide

/-- C2 amended: `fetch_recent_ticks` returns up to `limit` most-recent rows
of the requested symbol in descending timestamp order (the ascending
re-sort happens in the caller `load_ticks`), and returns the empty sequence
— never an error — when the symbol is unknown or has no data. -/
theorem fetch_recent_ticks_spec (db : DB) (symbol : String) (limit : Nat) :
    FetchSpec db symbol limit := by
  have hperm := List.perm_insertionSort tsDesc (db.filter (fun r => r.symbol == pyLower symbol))
  have hsorted := sorted_fetch_base db symbol
  refine ⟨?_, ?_, ?_, ?_, ?_⟩
  · exact List.Pairwise.sublist (List.take_sublist _ _) hsorted
  · rw [fetch_recent_ticks, List.length_take]
    exact min_le_left _ _
  · intro r hr
    have hr2 : r ∈ (db.filter (fun r => r.symbol == pyLower symbol)).insertionSort tsDesc :=
      List.take_subset _ _ hr
    have hr3 := hperm.mem_iff.mp hr2
    rw [List.mem_filter] at hr3
    exact ⟨hr3.1, eq_of_beq hr3.2⟩
  · intro r hrdb hrsym hrout s hs
    have hrf : r ∈ (db.filter (fun r => r.symbol == pyLower symbol)).insertionSort tsDesc := by
      apply hperm.mem_iff.mpr
      rw [List.mem_filter]
      exact ⟨hrdb, by simp [hrsym]⟩
    have hsplit := List.take_append_drop limit
      ((db.filter (fun r => r.symbol == pyLower symbol)).insertionSort tsDesc)
    rw [← hsplit] at hrf
    rcases List.mem_append.mp hrf with h | h
    · exact absurd h hrout
    · have hpw := hsorted
      rw [← hsplit] at hpw
      exact (List.pairwise_append.mp hpw).2.2 s hs r h
  · intro h
    have hnil : db.filter (fun r => r.symbol == pyLower symbol) = [] := by
      rw [List.filter_eq_nil_iff]
      intro r hr
      simpa using h r hr
    rw [fetch_recent_ticks, hnil]
    simp

/-! ### C3: compute_pair_spread -/

theorem sorted_lt_of_le_nodup {l : List Nat} (h1 : List.Sorted (fun x y : Nat => x ≤ y) l)
    (h2 : l.Nodup) : List.Sorted (fun x y : Nat => x < y) l :=
  (h1.and h2).imp (fun hab => lt_of_le_of_ne hab.1 hab.2)

/-- On a frame with unique keys, a stored pair is what the lookup finds. -/
theorem lookupKey_eq_of_mem {s : Series} {k : Nat} {v : ℚ}
    (hnd : (seriesKeys s).Nodup) (hm : (k, v) ∈ s) : lookupKey s k = some v := by
  induction s with
  | nil => cases hm
  | cons p rest ih =>
    rw [seriesKeys, List.map_cons, List.nodup_cons] at hnd
    by_cases hpk : p.1 = k
    · have hfind : List.find? (fun q => q.1 == k) (p :: rest) = some p := by
        rw [List.find?_cons_of_pos]
        simp [hpk]
      rcases List.mem_cons.mp hm with heq | hmem
      · rw [lookupKey, hfind, ← heq]
        rfl
      · exact absurd (by rw [hpk]; exact List.mem_map_of_mem Prod.fst hmem) hnd.1
    · have hfind : List.find? (fun q => q.1 == k) (p :: rest) =
          List.find? (fun q => q.1 == k) rest := by
        rw [List.find?_cons_of_neg]
        simp [hpk]
      rcases List.mem_cons.mp hm with heq | hmem
      · exact absurd (by rw [← heq]) hpk
      · rw [lookupKey, hfind]
        exact ih hnd.2 hmem

/-- A key absent from the frame looks up to `none`. -/
theorem lookupKey_eq_none {s : Series} {k : Nat} (h : k ∉ seriesKeys s) :
    lookupKey s k = none := by
  have hf : List.find? (fun q => q.1 == k) s = none := by
    rw [List.find?_eq_none]
    intro p hp hbeq
    exact h (by rw [← eq_of_beq hbeq]; exact List.mem_map_of_mem Prod.fst hp)
  rw [lookupKey, hf]
  rfl

theorem mem_unionKeys {df1 df2 : Series} {k : Nat} :
    k ∈ unionKeys df1 df2 ↔ k ∈ seriesKeys df1 ∨ k ∈ seriesKeys df2 := by
  rw [unionKeys,
    (List.perm_insertionSort (fun x y : Nat => x ≤ y) _).mem_iff,
    List.mem_dedup, List.mem_append]

/-- C3 amended, proven for frames with unique timestamps: `NaN` beta gives
an empty spread; otherwise the output covers the sorted union of the two
indexes, with `closeA − beta*closeB` at shared timestamps and `NaN` at
timestamps present in only one series. -/
theorem compute_pair_spread_spec (df1 df2 : Series) (b : ℚ)
    (h1 : (seriesKeys df1).Nodup) (h2 : (seriesKeys df2).Nodup) :
    SpreadSpec df1 df2 b := by
  have hmapfst : (compute_pair_spread df1 df2 (some b)).map Prod.fst = unionKeys df1 df2 := by
    rw [compute_pair_spread, List.map_map]
    exact List.map_id _
  refine ⟨rfl, ?_, ?_, ?_, ?_, ?_⟩
  · rw [hmapfst, unionKeys]
    exact List.perm_insertionSort _ _
  · rw [hmapfst]
    apply sorted_lt_of_le_nodup
    · exact List.sorted_insertionSort _ _
    · exact ((List.perm_insertionSort _ _).nodup_iff).mpr (List.nodup_dedup _)
  · intro k v1 v2 hv1 hv2
    have hk : k ∈ unionKeys df1 df2 :=
      mem_unionKeys.mpr (Or.inl (List.mem_map_of_mem Prod.fst hv1))
    rw [compute_pair_spread]
    apply List.mem_map.mpr
    refine ⟨k, hk, ?_⟩
    rw [lookupKey_eq_of_mem h1 hv1, lookupKey_eq_of_mem h2 hv2]
  · intro k hk hnk
    rw [compute_pair_spread]
    apply List.mem_map.mpr
    refine ⟨k, mem_unionKeys.mpr hk, ?_⟩
    rcases hk with hk1 | hk2
    · have hk2 : k ∉ seriesKeys df2 := fun hc => hnk ⟨hk1, hc⟩
      rw [lookupKey_eq_none hk2]
      cases lookupKey df1 k <;> rfl
    · by_cases hk1 : k ∈ seriesKeys df1
      · exact absurd ⟨hk1, hk2⟩ hnk
      · rw [lookupKey_eq_none hk1]
  · intro k ov hm
    have : k ∈ (compute_pair_spread df1 df2 (some b)).map Prod.fst :=
      List.mem_map_of_mem Prod.fst hm
    rw [hmapfst] at this
    exact mem_unionKeys.mp this

/-- Witness for C3's amended statement on two small overlapping frames. -/
theorem compute_pair_spread_spec_witness :
    ([1, 2] : List Nat).Nodup ∧ ([2, 3] : List Nat).Nodup
    ∧ SpreadSpec [(1, 10), (2, 4)] [(2, 5), (3, 1)] 2 :=
  ⟨by decide, by decide,
    compute_pair_spread_spec [(1, 10), (2, 4)] [(2, 5), (3, 1)] 2 (by decide) (by decide)⟩

/-- Counterexample to C3 as stated: with a valid beta, `df1` holding only
timestamp 1 and `df2` only timestamp 2, the result keeps both timestamps
with `NaN` values instead of being the (empty) inner join. -/
theorem compute_pair_spread_not_inner_join :
    compute_pair_spread [(1, 10)] [(2, 5)] (some 1) = [(1, none), (2, none)]
    ∧ compute_pair_spread [(1, 10)] [(2, 5)] (some 1) ≠ [] := by
  constructor
  · rfl
  · decide

/-! ### C4: compute_zscore -/

theorem getD_map_range {β : Type} (n i : Nat) (f : Nat → β) (d : β) (hi : i < n) :
    ((List.range n).map f).getD i d = f i := by
  have hlen : i < ((List.range n).map f).length := by simpa using hi
  rw [List.getD_eq_getElem _ _ hlen, List.getElem_map, List.getElem_range]

theorem length_windowSlice (w i : Nat) (xs : List ℚ) (hw : w ≤ i + 1)
    (hi : i < xs.length) : (windowSlice w i xs).length = w := by
  rw [windowSlice, List.length_drop, List.length_take]
  omega

theorem rolling_mean_getD (w i : Nat) (xs : List ℚ) (hi : i < xs.length) :
    (rolling_mean w xs).getD i none
      = if i + 1 < w then none else some (listMean (windowSlice w i xs)) := by
  rw [rolling_mean]
  exact getD_map_range _ _ _ _ hi

theorem rolling_var_getD (w i : Nat) (xs : List ℚ) (hi : i < xs.length) :
    (rolling_var w xs).getD i none
      = if i + 1 < w then none else some (sampleVar (windowSlice w i xs)) := by
  rw [rolling_var]
  exact getD_map_range _ _ _ _ hi

theorem zscoreCol_getD (w i : Nat) (xs : List ℚ) (hi : i < xs.length) :
    (zscoreCol w xs).getD i none
      = zscoreVal (xs.getD i 0) ((rolling_mean w xs).getD i none)
          ((rolling_var w xs).getD i none) := by
  rw [zscoreCol]
  exact getD_map_range _ _ _ _ hi

/-- Sample variance is never negative (for a singleton or empty list the
`ℚ`-division collapses to `0`). -/
theorem sampleVar_nonneg (l : List ℚ) : 0 ≤ sampleVar l := by
  rw [sampleVar]
  rcases l with _ | ⟨a, rest⟩
  · norm_num
  · apply div_nonneg
    · apply List.sum_nonneg
      intro x hx
      rw [List.mem_map] at hx
      obtain ⟨y, _, rfl⟩ := hx
      positivity
    · have h1 : (1 : ℚ) ≤ ((a :: rest).length : ℚ) := by
        rw [List.length_cons]
        exact_mod_cast Nat.succ_le_succ (Nat.zero_le _)
      linarith

theorem sampleVar_pos {l : List ℚ} (h : sampleVar l ≠ 0) : 0 < sampleVar l :=
  lt_of_le_of_ne (sampleVar_nonneg l) (Ne.symm h)

/-- Honesty of the `NaN`-on-zero-std embedding: when the sample variance of
a window with at least two points vanishes, every window value equals the
window mean, so the z-score numerator is exactly `0` and the float division
is `0.0 / 0.0 = NaN` (not an infinity). -/
theorem eq_mean_of_sampleVar_eq_zero {l : List ℚ} (hlen : 2 ≤ l.length)
    (h : sampleVar l = 0) : ∀ x ∈ l, x = listMean l := by
  intro x hx
  have hden : ((l.length : ℚ) - 1) ≠ 0 := by
    have : (2 : ℚ) ≤ (l.length : ℚ) := by exact_mod_cast hlen
    intro hc
    rw [sub_eq_zero] at hc
    rw [hc] at this
    norm_num at this
  have hnum : ((l.map (fun x => (x - listMean l) ^ 2)).sum) = 0 := by
    rw [sampleVar, div_eq_zero_iff] at h
    exact h.resolve_right hden
  have hxle : (x - listMean l) ^ 2 ≤ (l.map (fun x => (x - listMean l) ^ 2)).sum := by
    apply List.single_le_sum
    · intro y hy
      rw [List.mem_map] at hy
      obtain ⟨z, _, rfl⟩ := hy
      positivity
    · exact List.mem_map_of_mem _ hx
  have hzero : (x - listMean l) ^ 2 = 0 :=
    le_antisymm (hnum ▸ hxle) (by positivity)
  have := pow_eq_zero_iff (n := 2) (by norm_num) |>.mp hzero
  linarith [this]

/-- C4: the `zscore` column of `compute_zscore` is index-wise
`(close[i] − mean of the trailing w closes) / sample (n−1) std of the
trailing w closes`; the trailing window at a defined position has exactly
`w` observations, and the entry is `NaN` — not an exception — on the first
`w − 1` positions and whenever the windowed standard deviation is zero. -/
theorem compute_zscore_spec (candles : Series) (w i : Nat) (_hw : 1 ≤ w)
    (hi : i < candles.length) :
    (i + 1 < w → ((compute_zscore candles w).2).getD i none = none)
    ∧ (w ≤ i + 1 → (windowSlice w i (candles.map Prod.snd)).length = w)
    ∧ (w ≤ i + 1 → sampleVar (windowSlice w i (candles.map Prod.snd)) = 0 →
        ((compute_zscore candles w).2).getD i none = none)
    ∧ (w ≤ i + 1 → sampleVar (windowSlice w i (candles.map Prod.snd)) ≠ 0 →
        ((compute_zscore candles w).2).getD i none
          = some ((((candles.map Prod.snd).getD i 0
              - listMean (windowSlice w i (candles.map Prod.snd)) : ℚ) : ℝ)
            / Real.sqrt ((sampleVar (windowSlice w i (candles.map Prod.snd)) : ℚ) : ℝ))) := by
  have hlen : i < (candles.map Prod.snd).length := by simpa using hi
  have hcol : ((compute_zscore candles w).2).getD i none
      = zscoreVal ((candles.map Prod.snd).getD i 0)
          ((rolling_mean w (candles.map Prod.snd)).getD i none)
          ((rolling_var w (candles.map Prod.snd)).getD i none) := by
    rw [compute_zscore]
    exact zscoreCol_getD w i _ hlen
  refine ⟨?_, ?_, ?_, ?_⟩
  · intro h
    rw [hcol, rolling_mean_getD w i _ hlen, rolling_var_getD w i _ hlen,
      if_pos h, if_pos h]
    rfl
  · intro h
    exact length_windowSlice w i _ h hlen
  · intro h hv
    rw [hcol, rolling_mean_getD w i _ hlen, rolling_var_getD w i _ hlen,
      if_neg (not_lt.mpr h), if_neg (not_lt.mpr h), zscoreVal]
    rw [if_pos hv]
  · intro h hv
    rw [hcol, rolling_mean_getD w i _ hlen, rolling_var_getD w i _ hlen,
      if_neg (not_lt.mpr h), if_neg (not_lt.mpr h), zscoreVal]
    rw [if_neg hv]

/-- Witness for C4 on a three-candle frame with window 2, index 1. -/
theorem compute_zscore_spec_witness :
    ((1 : Nat) ≤ 2 ∧ (1 : Nat) < ([(0, 1), (1, 2), (2, 3)] : Series).length)
    ∧ ((1 + 1 < 2 → ((compute_zscore [(0, 1), (1, 2), (2, 3)] 2).2).getD 1 none = none)
      ∧ (2 ≤ 1 + 1 →
          (windowSlice 2 1 (([(0, 1), (1, 2), (2, 3)] : Series).map Prod.snd)).length = 2)
      ∧ (2 ≤ 1 + 1 →
          sampleVar (windowSlice 2 1 (([(0, 1), (1, 2), (2, 3)] : Series).map Prod.snd)) = 0 →
          ((compute_zscore [(0, 1), (1, 2), (2, 3)] 2).2).getD 1 none = none)
      ∧ (2 ≤ 1 + 1 →
          sampleVar (windowSlice 2 1 (([(0, 1), (1, 2), (2, 3)] : Series).map Prod.snd)) ≠ 0 →
          ((compute_zscore [(0, 1), (1, 2), (2, 3)] 2).2).getD 1 none
            = some ((((([(0, 1), (1, 2), (2, 3)] : Series).map Prod.snd).getD 1 0
                - listMean (windowSlice 2 1 (([(0, 1), (1, 2), (2, 3)] : Series).map Prod.snd)) : ℚ) : ℝ)
              / Real.sqrt ((sampleVar (windowSlice 2 1
                  (([(0, 1), (1, 2), (2, 3)] : Series).map Prod.snd)) : ℚ) : ℝ)))) :=
  ⟨⟨by decide, by decide⟩, compute_zscore_spec [(0, 1), (1, 2), (2, 3)] 2 1 (by decide) (by decide)⟩

/-! ### C5: compute_hedge_ratio -/

theorem sum_const_list (x : List ℚ) (c : ℚ) (h : ∀ v ∈ x, v = c) :
    x.sum = (x.length : ℚ) * c := by
  induction x with
  | nil => simp
  | cons a l ih =>
    rw [List.sum_cons, ih (fun v hv => h v (List.mem_cons_of_mem a hv)),
      h a (List.mem_cons_self a l), List.length_cons]
    push_cast
    ring

theorem sum_sq_const_list (x : List ℚ) (c : ℚ) (h : ∀ v ∈ x, v = c) :
    (x.map (fun a => a * a)).sum = (x.length : ℚ) * (c * c) := by
  induction x with
  | nil => simp
  | cons a l ih =>
    rw [List.map_cons, List.sum_cons, ih (fun v hv => h v (List.mem_cons_of_mem a hv)),
      h a (List.mem_cons_self a l), List.length_cons]
    push_cast
    ring

/-- A constant regressor makes the closed-form OLS denominator vanish, so
`olsSlope` reports the failure value. -/
theorem olsSlope_eq_none_of_const (x y : List ℚ) (c : ℚ) (hc : ∀ v ∈ x, v = c) :
    olsSlope x y = none := by
  rw [olsSlope]
  by_cases hlen : x.length ≠ y.length
  · rw [if_pos hlen]
  · rw [if_neg hlen]
    have hd : (x.length : ℚ) * (x.map (fun a => a * a)).sum - x.sum * x.sum = 0 := by
      rw [sum_const_list x c hc, sum_sq_const_list x c hc]
      ring
    rw [if_pos hd]

/-- C5: with fewer than `min_points` paired observations after the inner
join and `dropna`, `compute_hedge_ratio` returns the invalid estimate
(`NaN`, modelled `none`) rather than raising; and a singular design matrix
(constant `x` column) likewise yields the invalid estimate.  The embedding
is a total function: no exception can escape. -/
theorem compute_hedge_ratio_invalid (sx sy : OSeries) (min_points : Nat) :
    ((hedgeX sx sy).length < min_points ∨ (hedgeY sx sy).length < min_points →
      compute_hedge_ratio sx sy min_points = none)
    ∧ (∀ c : ℚ, (∀ v ∈ hedgeX sx sy, v = c) →
      compute_hedge_ratio sx sy min_points = none) := by
  constructor
  · intro h
    rw [compute_hedge_ratio, if_pos h]
  · intro c hc
    by_cases h : (hedgeX sx sy).length < min_points ∨ (hedgeY sx sy).length < min_points
    · rw [compute_hedge_ratio, if_pos h]
    · rw [compute_hedge_ratio, if_neg h]
      exact olsSlope_eq_none_of_const _ _ c hc

/-- Witness for C5: a single shared timestamp is far below the 20-point
minimum, so the estimate is invalid. -/
theorem compute_hedge_ratio_invalid_witness :
    ((hedgeX [(1, some 1)] [(1, some 2)]).length < 20
      ∨ (hedgeY [(1, some 1)] [(1, some 2)]).length < 20)
    ∧ compute_hedge_ratio [(1, some 1)] [(1, some 2)] 20 = none :=
  ⟨by decide, ( compute_hedge_ratio_invalid [(1, some 1)] [(1, some 2)] 20).1 (by decide)⟩

/-! ### C6: compute_rolling_correlation -/

theorem list_sum_map_eq_sum_range (l : List ℚ) (f : ℚ → ℚ) :
    (l.map f).sum = ∑ i ∈ Finset.range l.length, f (l.getD i 0) := by
  induction l with
  | nil => simp
  | cons a t ih =>
    rw [List.map_cons, List.sum_cons, List.length_cons, Finset.sum_range_succ', ih]
    simp only [List.getD_cons_succ, List.getD_cons_zero]
    ring

theorem list_sum_zipWith_eq_sum_range (u v : List ℚ) (hlen : v.length = u.length) :
    (List.zipWith (fun a b => a * b) u v).sum
      = ∑ i ∈ Finset.range u.length, u.getD i 0 * v.getD i 0 := by
  induction u generalizing v with
  | nil => simp
  | cons a t ih =>
    cases v with
    | nil => simp at hlen
    | cons b s =>
      rw [List.zipWith_cons_cons, List.sum_cons, List.length_cons, Finset.sum_range_succ',
        ih s (by simpa using hlen)]
      simp only [List.getD_cons_succ, List.getD_cons_zero]
      ring

/-- Cauchy–Schwarz for equal-length lists. -/
theorem list_inner_cs (u v : List ℚ) (hlen : v.length = u.length) :
    ((List.zipWith (fun a b => a * b) u v).sum) ^ 2
      ≤ ((u.map (fun a => a ^ 2)).sum) * ((v.map (fun a => a ^ 2)).sum) := by
  rw [list_sum_zipWith_eq_sum_range u v hlen, list_sum_map_eq_sum_range,
    list_sum_map_eq_sum_range, hlen]
  exact Finset.sum_mul_sq_le_sq_mul_sq (Finset.range u.length) _ _

theorem sampleVar_of_short {l : List ℚ} (h : l.length ≤ 1) : sampleVar l = 0 := by
  rw [sampleVar]
  rcases l with _ | ⟨a, t⟩
  · norm_num
  · rw [List.length_cons] at h
    have ht : t = [] := List.length_eq_zero.mp (by omega)
    subst ht
    norm_num

theorem listCov_of_short {x : List ℚ} (y : List ℚ) (h : x.length ≤ 1) :
    listCov x y = 0 := by
  rw [listCov]
  rcases x with _ | ⟨a, t⟩
  · simp
  · rw [List.length_cons] at h
    have ht : t = [] := List.length_eq_zero.mp (by omega)
    subst ht
    norm_num

/-- The squared sample covariance is bounded by the product of the sample
variances (Cauchy–Schwarz scaled by the shared `n − 1` denominator). -/
theorem listCov_sq_le_var_mul (x y : List ℚ) (hlen : y.length = x.length) :
    (listCov x y) ^ 2 ≤ sampleVar x * sampleVar y := by
  rcases Nat.lt_or_ge x.length 2 with hn | hn
  · rw [listCov_of_short y (by omega), sampleVar_of_short (l := x) (by omega),
      sampleVar_of_short (l := y) (by omega)]
    norm_num
  · have hS : List.zipWith (fun a b => (a - listMean x) * (b - listMean y)) x y
        = List.zipWith (fun a b => a * b)
            (x.map (fun a => a - listMean x)) (y.map (fun b => b - listMean y)) := by
      rw [List.zipWith_map]
    have hA : x.map (fun a => (a - listMean x) ^ 2)
        = (x.map (fun a => a - listMean x)).map (fun a => a ^ 2) := by
      rw [List.map_map]
      rfl
    have hB : y.map (fun b => (b - listMean y) ^ 2)
        = (y.map (fun b => b - listMean y)).map (fun a => a ^ 2) := by
      rw [List.map_map]
      rfl
    have hlen2 : (y.map (fun b => b - listMean y)).length
        = (x.map (fun a => a - listMean x)).length := by
      simpa using hlen
    have hcs := list_inner_cs _ _ hlen2
    have hd : (0 : ℚ) < ((x.length : ℚ) - 1) ^ 2 := by
      have h2 : (2 : ℚ) ≤ (x.length : ℚ) := by exact_mod_cast hn
      nlinarith
    rw [listCov, sampleVar, sampleVar, hlen, hS, hA, hB]
    rw [div_pow, div_mul_div_comm, ← pow_two]
    exact (div_le_div_iff_of_pos_right hd).mpr (by simpa using hcs)

/-- Every defined Pearson value of two equal-length windows lies in
`[-1, 1]`. -/
theorem pearson_bounds {x y : List ℚ} (hlen : y.length = x.length) {r : ℝ}
    (h : pearson x y = some r) : -1 ≤ r ∧ r ≤ 1 := by
  rw [pearson] at h
  by_cases hz : sampleVar x = 0 ∨ sampleVar y = 0
  · rw [if_pos hz] at h
    cases h
  · rw [if_neg hz] at h
    obtain ⟨hx0, hy0⟩ := not_or.mp hz
    have hxx : (0 : ℚ) < sampleVar x := sampleVar_pos hx0
    have hyy : (0 : ℚ) < sampleVar y := sampleVar_pos hy0
    have hxxR : (0 : ℝ) < ((sampleVar x : ℚ) : ℝ) := by exact_mod_cast hxx
    have hyyR : (0 : ℝ) < ((sampleVar y : ℚ) : ℝ) := by exact_mod_cast hyy
    injection h with h'
    have hsq : r ^ 2 ≤ 1 := by
      rw [← h', div_pow, mul_pow, Real.sq_sqrt (le_of_lt hxxR), Real.sq_sqrt (le_of_lt hyyR)]
      rw [div_le_one (by positivity)]
      have hq := listCov_sq_le_var_mul x y hlen
      have : (((listCov x y) ^ 2 : ℚ) : ℝ) ≤ ((sampleVar x * sampleVar y : ℚ) : ℝ) := by
        exact_mod_cast hq
      push_cast at this
      convert this using 2
    exact abs_le.mp ((sq_le_one_iff_abs_le_one r).mp hsq)

/-- The Pearson value of a window against itself is 1 wherever defined. -/
theorem pearson_self {x : List ℚ} {r : ℝ} (h : pearson x x = some r) : r = 1 := by
  rw [pearson] at h
  by_cases hz : sampleVar x = 0 ∨ sampleVar x = 0
  · rw [if_pos hz] at h
    cases h
  · rw [if_neg hz] at h
    have hx0 : sampleVar x ≠ 0 := (not_or.mp hz).1
    have hxx : (0 : ℚ) < sampleVar x := sampleVar_pos hx0
    have hxxR : (0 : ℝ) < ((sampleVar x : ℚ) : ℝ) := by exact_mod_cast hxx
    have hcov : listCov x x = sampleVar x := by
      rw [listCov, sampleVar]
      congr 1
      rw [List.zipWith_same]
      apply congrArg List.sum
      apply List.map_congr_left
      intro a _
      ring
    injection h with h'
    rw [← h', hcov, Real.mul_self_sqrt (le_of_lt hxxR)]
    exact div_self (ne_of_gt hxxR)

theorem windowSlice_length_eq (w i : Nat) (xs ys : List ℚ) (h : xs.length = ys.length) :
    (windowSlice w i xs).length = (windowSlice w i ys).length := by
  rw [windowSlice, windowSlice, List.length_drop, List.length_drop,
    List.length_take, List.length_take, h]

/-- Elimination: a defined entry of the rolling-correlation column comes
from a Pearson computation on the two trailing window slices. -/
theorem corr_mem_elim {df1 df2 : Series} {w : Nat} {k : Nat} {r : ℝ}
    (h : (k, some r) ∈ compute_rolling_correlation df1 df2 w) :
    ∃ i, i < (mergedPair df1 df2).length ∧ w ≤ i + 1
      ∧ pearson (windowSlice w i ((mergedPair df1 df2).map (fun p => p.2.1)))
          (windowSlice w i ((mergedPair df1 df2).map (fun p => p.2.2))) = some r := by
  rw [compute_rolling_correlation] at h
  by_cases hlt : (mergedPair df1 df2).length < w
  · rw [if_pos hlt] at h
    rw [List.mem_map] at h
    obtain ⟨p, _, hp⟩ := h
    simp at hp
  · rw [if_neg hlt] at h
    rw [List.mem_map] at h
    obtain ⟨i, hi, hp⟩ := h
    rw [List.mem_range] at hi
    by_cases hw : i + 1 < w
    · rw [if_pos hw] at hp
      simp at hp
    · rw [if_neg hw] at hp
      have h2 := congrArg Prod.snd hp
      exact ⟨i, hi, not_lt.mp hw, h2⟩

/-- On a frame with unique timestamps, the self-merge pairs each close with
itself. -/
theorem mergedPair_self {df : Series} (h : (seriesKeys df).Nodup) :
    mergedPair df df = df.map (fun p => (p.1, p.2, p.2)) := by
  rw [mergedPair]
  have hcongr : ∀ p ∈ df,
      (lookupKey df p.1).map (fun v => (p.1, p.2, v)) = some (p.1, p.2, p.2) := by
    intro p hp
    rw [lookupKey_eq_of_mem h (by simpa using hp)]
    rfl
  rw [List.filterMap_congr hcongr]
  exact congrFun (List.filterMap_eq_map (fun p : Nat × ℚ => (p.1, p.2, p.2))) df

/-- C6: every defined value of `compute_rolling_correlation` lies in
`[-1, 1]`, and with the same frame passed as both arguments (unique
timestamps) every defined value is exactly 1. -/
theorem compute_rolling_correlation_bounds (df1 df2 : Series) (w : Nat) :
    (∀ (k : Nat) (r : ℝ), (k, some r) ∈ compute_rolling_correlation df1 df2 w →
      -1 ≤ r ∧ r ≤ 1)
    ∧ ((seriesKeys df1).Nodup →
      ∀ (k : Nat) (r : ℝ), (k, some r) ∈ compute_rolling_correlation df1 df1 w → r = 1) := by
  constructor
  · intro k r hm
    obtain ⟨i, _, _, hp⟩ := corr_mem_elim hm
    exact pearson_bounds (windowSlice_length_eq w i _ _ (by simp)) hp
  · intro hnd k r hm
    obtain ⟨i, _, _, hp⟩ := corr_mem_elim hm
    rw [mergedPair_self hnd, List.map_map, List.map_map] at hp
    exact pearson_self hp

/-- Witness for C6: the self-correlation consequence on a concrete
two-point frame with window 2. -/
theorem compute_rolling_correlation_bounds_witness :
    (seriesKeys [(0, 1), (1, 2)]).Nodup
    ∧ (∀ (k : Nat) (r : ℝ),
        (k, some r) ∈ compute_rolling_correlation [(0, 1), (1, 2)] [(0, 1), (1, 2)] 2 →
        r = 1) :=
  ⟨by decide,
    (compute_rolling_correlation_bounds [(0, 1), (1, 2)] [(0, 1), (1, 2)] 2).2 (by decide)⟩

/-! ### C7: run_adf_test -/

/-- C7: with fewer than 20 defined values after dropping `NaN`s the test
returns the explicit insufficient-data outcome (the embedding is total: no
exception); otherwise it returns the externally computed statistic, p-value
and critical values at the 1%/5%/10% thresholds, with the derived verdict
`stationary_at_5pct = (p-value < 0.05)`. -/
theorem run_adf_test_spec (adfuller : List ℚ → AdfRaw) (series : List (Option ℚ)) :
    ((dropna series).length < 20 → run_adf_test adfuller series = .insufficient)
    ∧ (20 ≤ (dropna series).length →
        run_adf_test adfuller series
          = .ok (adfuller (dropna series)).stat (adfuller (dropna series)).pval
              (adfuller (dropna series)).crit1 (adfuller (dropna series)).crit5
              (adfuller (dropna series)).crit10
              (decide ((adfuller (dropna series)).pval < 1 / 20))) := by
  constructor
  · intro h
    rw [run_adf_test, if_pos h]
  · intro h
    rw [run_adf_test, if_neg (not_lt.mpr h)]

/-- Witness for C7 on a one-point series: insufficient data, no error. -/
theorem run_adf_test_spec_witness :
    (dropna [some (1 : ℚ)]).length < 20
    ∧ run_adf_test (fun _ => ⟨0, 1, 0, 0, 0⟩) [some (1 : ℚ)] = .insufficient :=
  ⟨by decide, (run_adf_test_spec (fun _ => ⟨0, 1, 0, 0, 0⟩) [some (1 : ℚ)]).1 (by decide)⟩

/-! ### C8: the ingestion receive loop -/

/-- C8, what the source actually does: a well-formed non-trade message is
silently skipped and stores nothing, and a later well-formed trade is
stored; but a malformed message raises out of the unguarded `while True`
loop, so the stream terminates at it and the following well-formed trade is
never stored — contradicting the claim that malformed input is skipped
without terminating the stream. -/
theorem run_listen_malformed_terminates :
    process_message "btcusdt" (.obj (some "depthUpdate") none none none none) = .ok none
    ∧ run_listen "btcusdt"
        [.obj (some "depthUpdate") none none none none,
          .obj (some "trade") (some 1700000000000) (some 100) (some 2) (some "BTCUSDT")]
        = .ok [⟨"btcusdt", 100, 2, 1700000000000⟩]
    ∧ run_listen "btcusdt"
        [.malformed,
          .obj (some "trade") (some 1700000000000) (some 100) (some 2) (some "BTCUSDT")]
        = .error () :=
  ⟨rfl, rfl, rfl⟩

/-! ### C9: case-insensitive symbol round trip -/

/-- C9: a tick inserted under any casing of a symbol is returned by
`fetch_recent_ticks` queried under any other casing of the same symbol
(both sides lowercase before storing and filtering), provided the limit
accommodates the symbol's rows. -/
theorem insert_fetch_roundtrip (db : DB) (sym1 sym2 : String) (price qty : ℚ)
    (ts : Nat) (limit : Nat)
    (hcase : pyLower sym1 = pyLower sym2)
    (hlimit : ((insert_tick db sym1 price qty ts).filter
      (fun r => r.symbol == pyLower sym2)).length ≤ limit) :
    (⟨ts, pyLower sym1, price, qty⟩ : Row)
      ∈ fetch_recent_ticks (insert_tick db sym1 price qty ts) sym2 limit := by
  rw [fetch_recent_ticks, List.take_of_length_le]
  · apply (List.perm_insertionSort tsDesc _).mem_iff.mpr
    rw [List.mem_filter]
    refine ⟨?_, ?_⟩
    · rw [insert_tick]
      exact List.mem_append_right _ (List.mem_singleton_self _)
    · simp [hcase]
  · rw [(List.perm_insertionSort tsDesc _).length_eq]
    exact hlimit

/-- Witness for C9 with mixed casings of "btcusdt". -/
theorem insert_fetch_roundtrip_witness :
    pyLower "BTCusdt" = pyLower "btcUSDT"
    ∧ ((insert_tick [] "BTCusdt" 100 2 5).filter
      (fun r => r.symbol == pyLower "btcUSDT")).length ≤ 10
    ∧ (⟨5, pyLower "BTCusdt", 100, 2⟩ : Row)
      ∈ fetch_recent_ticks (insert_tick [] "BTCusdt" 100 2 5) "btcUSDT" 10 :=
  ⟨by decide, by decide,
    insert_fetch_roundtrip [] "BTCusdt" "btcUSDT" 100 2 5 10 (by decide) (by decide)⟩

/-! ### C10: frame effects of the two z-score functions -/

/-- C10: on a non-empty spread frame (fresh from `compute_pair_spread`, so
without a z-column), `compute_spread_zscore` returns the very object it
wrote into the caller's frame — afterwards the caller's frame carries the
`spread_zscore` column and differs from the input — whereas
`compute_zscore` works on a copy, so the caller's candle frame after that
call is the unchanged input. -/
theorem compute_spread_zscore_mutates (f : SpreadFrame) (w : Nat)
    (hne : f.spread ≠ []) (hfresh : f.zcol = none) :
    ((compute_spread_zscore f w).2 = (compute_spread_zscore f w).1
      ∧ ((compute_spread_zscore f w).2).spread = f.spread
      ∧ ((compute_spread_zscore f w).2).zcol
          = some (zscoreColO w (f.spread.map Prod.snd))
      ∧ (compute_spread_zscore f w).2 ≠ f)
    ∧ (∀ (candles : Series) (w' : Nat), (compute_zscore_call candles w').2 = candles) := by
  have hb : ¬(f.spread.isEmpty = true) := by
    rw [List.isEmpty_iff]
    exact hne
  rw [compute_spread_zscore, if_neg hb]
  refine ⟨⟨rfl, rfl, rfl, ?_⟩, fun _ _ => rfl⟩
  intro heq
  have hz := congrArg SpreadFrame.zcol heq
  rw [hfresh] at hz
  cases hz

/-- Witness for C10 on a one-row spread frame without a z-column. -/
theorem compute_spread_zscore_mutates_witness :
    (({ spread := [(0, some 1)], zcol := none } : SpreadFrame).spread ≠ []
      ∧ ({ spread := [(0, some 1)], zcol := none } : SpreadFrame).zcol = none)
    ∧ (((compute_spread_zscore { spread := [(0, some 1)], zcol := none } 2).2
          = (compute_spread_zscore { spread := [(0, some 1)], zcol := none } 2).1
      ∧ ((compute_spread_zscore { spread := [(0, some 1)], zcol := none } 2).2).spread
          = ({ spread := [(0, some 1)], zcol := none } : SpreadFrame).spread
      ∧ ((compute_spread_zscore { spread := [(0, some 1)], zcol := none } 2).2).zcol
          = some (zscoreColO 2 ((([(0, some 1)]) : List (Nat × Option ℚ)).map Prod.snd))
      ∧ (compute_spread_zscore { spread := [(0, some 1)], zcol := none } 2).2
          ≠ { spread := [(0, some 1)], zcol := none })
      ∧ (∀ (candles : Series) (w' : Nat), (compute_zscore_call candles w').2 = candles)) :=
  ⟨⟨by decide, rfl⟩,
    compute_spread_zscore_mutates { spread := [(0, some 1)], zcol := none } 2 (by decide) rfl⟩

end QuantCore
